import Mathlib

/-!
Shallow embedding of the Avellaneda-Stoikov market-making simulator
(`model.rs`, `sim.rs`, `analysis.rs`).  Floating-point numbers are modelled
as real numbers; the trajectory loop's random draws (one standard-normal
sample and two uniform samples per step) are modelled as explicit input
streams indexed by the step number.
-/

namespace AvellanedaStoikov

/-- Strategy parameters (`model.rs` `Parameters`). -/
structure Parameters where
  gamma : ℝ
  sigma : ℝ
  t_horizon : ℝ
  k : ℝ
  a : ℝ

/-- Rust `model.rs` `ExponentialIntensity { k, a }`. -/
structure ExponentialIntensity where
  k : ℝ
  a : ℝ

/-- Rust `ExponentialIntensity::calculate_intensity`: `self.a * (-self.k * delta.max(0.0)).exp()`. -/
noncomputable def ExponentialIntensity.calculate_intensity
    (m : ExponentialIntensity) (delta : ℝ) : ℝ :=
  m.a * Real.exp (-m.k * max delta 0)

/-- Rust `model.rs` `PowerLawIntensity { a, k, beta }`. -/
structure PowerLawIntensity where
  a : ℝ
  k : ℝ
  beta : ℝ

/-- Rust `PowerLawIntensity::calculate_intensity`:
`self.a * (1.0 + self.k * delta.max(0.0)).powf(-self.beta)`. -/
noncomputable def PowerLawIntensity.calculate_intensity
    (m : PowerLawIntensity) (delta : ℝ) : ℝ :=
  m.a * (1 + m.k * max delta 0) ^ (-m.beta)

/-- Rust `model.rs` `reservation_price`: `s - q as f64 * gamma * sigma * sigma * (T - t)`. -/
noncomputable def reservation_price (params : Parameters) (s : ℝ) (q : ℤ) (t : ℝ) : ℝ :=
  s - (q : ℝ) * params.gamma * params.sigma * params.sigma * (params.t_horizon - t)

/-- Rust `model.rs` `optimal_spread`:
`gamma * sigma^2 * (T - t) + (2/gamma) * (1 + gamma/k).ln()`. -/
noncomputable def optimal_spread (parameters : Parameters) (t : ℝ) : ℝ :=
  parameters.gamma * (parameters.sigma * parameters.sigma) * (parameters.t_horizon - t)
    + (2 / parameters.gamma) * Real.log (1 + parameters.gamma / parameters.k)

/-- Rust `model.rs` `quotes`: `(r + spread/2, r - spread/2)` as `(ask, bid)`. -/
noncomputable def quotes (r_price : ℝ) (spread : ℝ) : ℝ × ℝ :=
  (r_price + spread / 2, r_price - spread / 2)

/-- Rust `sim.rs` `SimConfig`. -/
structure SimConfig where
  dt : ℝ
  num_steps : ℕ
  s_0 : ℝ
  drift : ℝ
  latency_steps : ℕ

/-- Rust `sim.rs` `StepRecord`. -/
structure StepRecord where
  time : ℝ
  mid_price : ℝ
  inventory : ℤ
  cash : ℝ
  wealth : ℝ
  bid_price : ℝ
  ask_price : ℝ

instance : Inhabited StepRecord := ⟨⟨0, 0, 0, 0, 0, 0, 0⟩⟩

/-- Rust `sim.rs` `SimResult`. -/
structure SimResult where
  trajectory : List StepRecord
  final_pnl : ℝ

/-- Per-step random draws of `run_trajectory`: one standard-normal sample for the
price innovation and two uniform samples for the bid/ask fill decisions, each
indexed by the step number. -/
structure RandStream where
  zs : ℕ → ℝ
  us_bid : ℕ → ℝ
  us_ask : ℕ → ℝ

/-- The mutable loop state of `run_trajectory`: time `t`, mid-price `s`, inventory
`q`, cash `w`, the trajectory built so far and the latency quote queue
(front of the `VecDeque` = head of the list; entries are `(ask, bid)` pairs). -/
structure TrajState where
  t : ℝ
  s : ℝ
  q : ℤ
  w : ℝ
  trajectory : List StepRecord
  quote_queue : List (ℝ × ℝ)

/-- Initial state of `run_trajectory` (`t = 0`, `s = s_0`, `q = 0`, `w = 0`,
empty trajectory and quote queue). -/
noncomputable def initState (config : SimConfig) : TrajState :=
  { t := 0, s := config.s_0, q := 0, w := 0, trajectory := [], quote_queue := [] }

/-- One iteration of the `for` loop in `sim.rs` `run_trajectory`, with the step's
random draws `z` (standard normal), `u1` (uniform, bid fill) and `u2`
(uniform, ask fill) passed explicitly. -/
noncomputable def trajStep (agent_params : Parameters) (config : SimConfig)
    (intensity : ℝ → ℝ) (z u1 u2 : ℝ) (st : TrajState) : TrajState :=
  let r := reservation_price agent_params st.s st.q st.t
  let spread := optimal_spread agent_params st.t
  let ask := (quotes r spread).1
  let bid := (quotes r spread).2
  let pushed := st.quote_queue ++ [(ask, bid)]
  let eff : ℝ × ℝ :=
    if config.latency_steps = 0 then (ask, bid)
    else if config.latency_steps < pushed.length then pushed.headD (0, 0)
    else pushed.getLastD (0, 0)
  let queue' : List (ℝ × ℝ) :=
    if config.latency_steps = 0 then pushed
    else if config.latency_steps < pushed.length then pushed.tail
    else pushed
  let record : StepRecord :=
    { time := st.t, mid_price := st.s, inventory := st.q, cash := st.w,
      wealth := st.w + (st.q : ℝ) * st.s,
      bid_price := eff.2, ask_price := eff.1 }
  let s' := st.s * (1 + config.drift * config.dt
      + agent_params.sigma * Real.sqrt config.dt * z)
  let delta_bid := s' - eff.2
  let delta_ask := eff.1 - s'
  let prob_bid_fill := intensity delta_bid * config.dt
  let prob_ask_fill := intensity delta_ask * config.dt
  { t := st.t + config.dt, s := s',
    q := st.q + (if u1 < prob_bid_fill then 1 else 0)
      - (if u2 < prob_ask_fill then 1 else 0),
    w := st.w - (if u1 < prob_bid_fill then eff.2 else 0)
      + (if u2 < prob_ask_fill then eff.1 else 0),
    trajectory := st.trajectory ++ [record],
    quote_queue := queue' }

/-- The loop state of `run_trajectory` after `n` iterations. -/
noncomputable def simStates (agent_params : Parameters) (config : SimConfig)
    (intensity : ℝ → ℝ) (rs : RandStream) : ℕ → TrajState
  | 0 => initState config
  | n + 1 => trajStep agent_params config intensity (rs.zs n) (rs.us_bid n) (rs.us_ask n)
      (simStates agent_params config intensity rs n)

/-- Rust `sim.rs` `run_trajectory`: run the loop for `num_steps` iterations and return
the trajectory together with `final_pnl = w + q * s`. -/
noncomputable def run_trajectory (agent_params : Parameters) (config : SimConfig)
    (intensity : ℝ → ℝ) (rs : RandStream) : SimResult :=
  let fin := simStates agent_params config intensity rs config.num_steps
  { trajectory := fin.trajectory, final_pnl := fin.w + (fin.q : ℝ) * fin.s }

/-- The raw `(ask, bid)` quote pair computed at the top of loop iteration `n` of
`run_trajectory` (before the latency queue is consulted). -/
noncomputable def rawQuote (agent_params : Parameters) (config : SimConfig)
    (intensity : ℝ → ℝ) (rs : RandStream) (n : ℕ) : ℝ × ℝ :=
  let st := simStates agent_params config intensity rs n
  quotes (reservation_price agent_params st.s st.q st.t)
    (optimal_spread agent_params st.t)

/-- The effective `(ask, bid)` quote pair exposed to the market at loop iteration
`n` of `run_trajectory`, exactly as the latency branch of `sim.rs` computes it. -/
noncomputable def effQuotes (agent_params : Parameters) (config : SimConfig)
    (intensity : ℝ → ℝ) (rs : RandStream) (n : ℕ) : ℝ × ℝ :=
  let st := simStates agent_params config intensity rs n
  let r := reservation_price agent_params st.s st.q st.t
  let spread := optimal_spread agent_params st.t
  let ask := (quotes r spread).1
  let bid := (quotes r spread).2
  let pushed := st.quote_queue ++ [(ask, bid)]
  if config.latency_steps = 0 then (ask, bid)
  else if config.latency_steps < pushed.length then pushed.headD (0, 0)
  else pushed.getLastD (0, 0)

/-- The `StepRecord` pushed onto the trajectory at loop iteration `n`:
a snapshot of the state at the start of iteration `n` plus the effective
quotes of iteration `n`. -/
noncomputable def recordAt (agent_params : Parameters) (config : SimConfig)
    (intensity : ℝ → ℝ) (rs : RandStream) (n : ℕ) : StepRecord :=
  let st := simStates agent_params config intensity rs n
  { time := st.t, mid_price := st.s, inventory := st.q, cash := st.w,
    wealth := st.w + (st.q : ℝ) * st.s,
    bid_price := (effQuotes agent_params config intensity rs n).2,
    ask_price := (effQuotes agent_params config intensity rs n).1 }

section TrajectoryLemmas

variable (p : Parameters) (config : SimConfig) (intensity : ℝ → ℝ) (rs : RandStream)

lemma trajectory_snoc (n : ℕ) :
    (simStates p config intensity rs (n + 1)).trajectory
      = (simStates p config intensity rs n).trajectory
        ++ [recordAt p config intensity rs n] := rfl

lemma quote_queue_snoc (n : ℕ) :
    (simStates p config intensity rs (n + 1)).quote_queue
      = (let pushed := (simStates p config intensity rs n).quote_queue
          ++ [rawQuote p config intensity rs n]
        if config.latency_steps = 0 then pushed
        else if config.latency_steps < pushed.length then pushed.tail
        else pushed) := rfl

/-- The trajectory after `n` loop iterations consists of the records made at
iterations `0, …, n-1`, in order. -/
lemma trajectory_eq (n : ℕ) :
    (simStates p config intensity rs n).trajectory
      = (List.range n).map (recordAt p config intensity rs) := by
  induction n with
  | zero => rfl
  | succ n ih =>
      rw [trajectory_snoc, ih, List.range_succ, List.map_append, List.map_singleton]

/-- Latency-queue invariant: with positive latency `L`, after `n` loop iterations
the queue holds the raw quotes of iterations `n - min n L, …, n - 1`, oldest at
the front. -/
lemma quote_queue_eq (hL : config.latency_steps ≠ 0) (n : ℕ) :
    (simStates p config intensity rs n).quote_queue
      = (List.range' (n - min n config.latency_steps)
          (min n config.latency_steps)).map (rawQuote p config intensity rs) := by
  set L := config.latency_steps with hLdef
  induction n with
  | zero => simp [simStates, initState]
  | succ n ih =>
      rw [quote_queue_snoc, ih]
      simp only [if_neg hL]
      rcases Nat.lt_or_ge n L with hn | hn
      · have hmin : min n L = n := Nat.min_eq_left hn.le
        have hmin' : min (n + 1) L = n + 1 := Nat.min_eq_left hn
        have hlen : ¬ L < ((List.range' (n - min n L) (min n L)).map
            (rawQuote p config intensity rs) ++ [rawQuote p config intensity rs n]).length := by
          simp [hmin]; omega
        rw [if_neg hlen]
        rw [hmin, hmin', Nat.sub_self, Nat.sub_self]
        rw [List.range'_1_concat 0 n, List.map_append]
        simp
      · have hmin : min n L = L := Nat.min_eq_right hn
        have hmin' : min (n + 1) L = L := Nat.min_eq_right (by omega)
        have hlen : L < ((List.range' (n - min n L) (min n L)).map
            (rawQuote p config intensity rs) ++ [rawQuote p config intensity rs n]).length := by
          simp [hmin]
        rw [if_pos hlen, hmin, hmin']
        have hcat : (List.range' (n - L) L).map (rawQuote p config intensity rs)
            ++ [rawQuote p config intensity rs n]
            = (List.range' (n - L) (L + 1)).map (rawQuote p config intensity rs) := by
          rw [List.range'_1_concat (n - L) L, show n - L + L = n by omega, List.map_append]
          simp
        rw [hcat, List.range'_succ]
        rw [List.map_cons, List.tail_cons, show n - L + 1 = n + 1 - L by omega]

/-- With zero latency, the effective quotes of iteration `n` are the raw quotes
of iteration `n`. -/
lemma effQuotes_of_no_latency (hL : config.latency_steps = 0) (n : ℕ) :
    effQuotes p config intensity rs n = rawQuote p config intensity rs n := by
  simp only [effQuotes, rawQuote, hL, if_pos]

/-- With positive latency `L`, during warm-up (`n < L`) the effective quotes of
iteration `n` are the raw quotes of iteration `n` itself. -/
lemma effQuotes_warmup (hL : config.latency_steps ≠ 0) (n : ℕ)
    (hn : n < config.latency_steps) :
    effQuotes p config intensity rs n = rawQuote p config intensity rs n := by
  set L := config.latency_steps with hLdef
  have hq := quote_queue_eq p config intensity rs hL n
  have hmin : min n L = n := Nat.min_eq_left hn.le
  rw [hmin, Nat.sub_self] at hq
  show (let st := simStates p config intensity rs n
    let r := reservation_price p st.s st.q st.t
    let spread := optimal_spread p st.t
    let ask := (quotes r spread).1
    let bid := (quotes r spread).2
    let pushed := st.quote_queue ++ [(ask, bid)]
    if L = 0 then (ask, bid)
    else if L < pushed.length then pushed.headD (0, 0)
    else pushed.getLastD (0, 0)) = rawQuote p config intensity rs n
  simp only [hq, if_neg hL]
  have hpair : ((rawQuote p config intensity rs n).1, (rawQuote p config intensity rs n).2)
      = rawQuote p config intensity rs n := rfl
  have hlen : ¬ L < ((List.range' 0 n).map (rawQuote p config intensity rs)
      ++ [rawQuote p config intensity rs n]).length := by
    simp; omega
  rw [show ((quotes (reservation_price p (simStates p config intensity rs n).s
      (simStates p config intensity rs n).q (simStates p config intensity rs n).t)
      (optimal_spread p (simStates p config intensity rs n).t)).1,
      (quotes (reservation_price p (simStates p config intensity rs n).s
      (simStates p config intensity rs n).q (simStates p config intensity rs n).t)
      (optimal_spread p (simStates p config intensity rs n).t)).2)
      = rawQuote p config intensity rs n from rfl]
  rw [if_neg hlen]
  exact List.getLastD_concat _ _ _

/-- With positive latency `L`, once the buffer is full (`L ≤ n`) the effective
quotes of iteration `n` are the raw quotes of iteration `n - L`. -/
lemma effQuotes_delayed (hL : config.latency_steps ≠ 0) (n : ℕ)
    (hn : config.latency_steps ≤ n) :
    effQuotes p config intensity rs n
      = rawQuote p config intensity rs (n - config.latency_steps) := by
  set L := config.latency_steps with hLdef
  have hq := quote_queue_eq p config intensity rs hL n
  have hmin : min n L = L := Nat.min_eq_right hn
  rw [hmin] at hq
  show (let st := simStates p config intensity rs n
    let r := reservation_price p st.s st.q st.t
    let spread := optimal_spread p st.t
    let ask := (quotes r spread).1
    let bid := (quotes r spread).2
    let pushed := st.quote_queue ++ [(ask, bid)]
    if L = 0 then (ask, bid)
    else if L < pushed.length then pushed.headD (0, 0)
    else pushed.getLastD (0, 0)) = rawQuote p config intensity rs (n - L)
  simp only [hq, if_neg hL]
  rw [show ((quotes (reservation_price p (simStates p config intensity rs n).s
      (simStates p config intensity rs n).q (simStates p config intensity rs n).t)
      (optimal_spread p (simStates p config intensity rs n).t)).1,
      (quotes (reservation_price p (simStates p config intensity rs n).s
      (simStates p config intensity rs n).q (simStates p config intensity rs n).t)
      (optimal_spread p (simStates p config intensity rs n).t)).2)
      = rawQuote p config intensity rs n from rfl]
  have hcat : (List.range' (n - L) L).map (rawQuote p config intensity rs)
      ++ [rawQuote p config intensity rs n]
      = (List.range' (n - L) (L + 1)).map (rawQuote p config intensity rs) := by
    rw [List.range'_1_concat (n - L) L, show n - L + L = n by omega, List.map_append]
    simp
  rw [hcat]
  have hlen : L < ((List.range' (n - L) (L + 1)).map
      (rawQuote p config intensity rs)).length := by simp
  rw [if_pos hlen, List.range'_succ]
  simp

/-- For `i < num_steps`, the `i`-th record of the returned trajectory is the
record made at loop iteration `i`. -/
lemma trajectory_getD (i : ℕ) (hi : i < config.num_steps) :
    (run_trajectory p config intensity rs).trajectory.getD i default
      = recordAt p config intensity rs i := by
  show (simStates p config intensity rs config.num_steps).trajectory.getD i default = _
  rw [trajectory_eq]
  have hlen : i < ((List.range config.num_steps).map
      (recordAt p config intensity rs)).length := by simpa using hi
  rw [List.getD_eq_getElem?_getD, List.getElem?_map, List.getElem?_range hi]
  rfl

/-- The new mid-price computed at loop iteration `n` (step 5 of the per-step
algorithm): `s * (1 + drift*dt + sigma*sqrt(dt)*z)`. -/
noncomputable def newPrice (n : ℕ) : ℝ :=
  (simStates p config intensity rs n).s
    * (1 + config.drift * config.dt + p.sigma * Real.sqrt config.dt * rs.zs n)

/-- The bid fill probability of loop iteration `n`:
`intensity (s_new - effective_bid) * dt`. -/
noncomputable def bidFillProb (n : ℕ) : ℝ :=
  intensity (newPrice p config intensity rs n
    - (effQuotes p config intensity rs n).2) * config.dt

/-- The ask fill probability of loop iteration `n`:
`intensity (effective_ask - s_new) * dt`. -/
noncomputable def askFillProb (n : ℕ) : ℝ :=
  intensity ((effQuotes p config intensity rs n).1
    - newPrice p config intensity rs n) * config.dt

end TrajectoryLemmas

/-- Fixed example inputs used by the witnesses (values of the repository's own
test `test_sweep_basic` and `run_analysis.rs`). -/
noncomputable def pEx : Parameters :=
  { gamma := 0.1, sigma := 0.2, t_horizon := 1, k := 1.5, a := 140 }

noncomputable def cfgEx : SimConfig :=
  { dt := 0.005, num_steps := 1, s_0 := 100, drift := 0, latency_steps := 0 }

noncomputable def intensityEx : ℝ → ℝ := fun _ => 0

noncomputable def rsEx : RandStream :=
  { zs := fun _ => 0, us_bid := fun _ => 1, us_ask := fun _ => 1 }

/-- C1: Latency semantics of `run_trajectory`: with `latency_steps = 0` the
recorded effective quotes at every step `i` equal the raw quotes computed at
step `i`; with `latency_steps = L > 0`, for `i ≥ L` they equal the raw quotes
computed at step `i - L`, and for `i < L` (queue not yet full) they equal the
raw quotes computed at step `i` itself (optimistic warm-up). -/
theorem claim_C1_latency_semantics (p : Parameters) (config : SimConfig)
    (intensity : ℝ → ℝ) (rs : RandStream) (i : ℕ) (hi : i < config.num_steps) :
    (config.latency_steps = 0 →
      ((run_trajectory p config intensity rs).trajectory.getD i default).ask_price
          = (rawQuote p config intensity rs i).1
        ∧ ((run_trajectory p config intensity rs).trajectory.getD i default).bid_price
          = (rawQuote p config intensity rs i).2)
    ∧ (config.latency_steps ≠ 0 → config.latency_steps ≤ i →
      ((run_trajectory p config intensity rs).trajectory.getD i default).ask_price
          = (rawQuote p config intensity rs (i - config.latency_steps)).1
        ∧ ((run_trajectory p config intensity rs).trajectory.getD i default).bid_price
          = (rawQuote p config intensity rs (i - config.latency_steps)).2)
    ∧ (config.latency_steps ≠ 0 → i < config.latency_steps →
      ((run_trajectory p config intensity rs).trajectory.getD i default).ask_price
          = (rawQuote p config intensity rs i).1
        ∧ ((run_trajectory p config intensity rs).trajectory.getD i default).bid_price
          = (rawQuote p config intensity rs i).2) := by
  rw [trajectory_getD p config intensity rs i hi]
  refine ⟨fun hL => ?_, fun hL hiL => ?_, fun hL hiL => ?_⟩
  · rw [show (recordAt p config intensity rs i).ask_price
        = (effQuotes p config intensity rs i).1 from rfl,
      show (recordAt p config intensity rs i).bid_price
        = (effQuotes p config intensity rs i).2 from rfl,
      effQuotes_of_no_latency p config intensity rs hL i]
    exact ⟨rfl, rfl⟩
  · rw [show (recordAt p config intensity rs i).ask_price
        = (effQuotes p config intensity rs i).1 from rfl,
      show (recordAt p config intensity rs i).bid_price
        = (effQuotes p config intensity rs i).2 from rfl,
      effQuotes_delayed p config intensity rs hL i hiL]
    exact ⟨rfl, rfl⟩
  · rw [show (recordAt p config intensity rs i).ask_price
        = (effQuotes p config intensity rs i).1 from rfl,
      show (recordAt p config intensity rs i).bid_price
        = (effQuotes p config intensity rs i).2 from rfl,
      effQuotes_warmup p config intensity rs hL i hiL]
    exact ⟨rfl, rfl⟩

theorem claim_C1_witness :
    0 < cfgEx.num_steps ∧
    ((run_trajectory pEx cfgEx intensityEx rsEx).trajectory.getD 0 default).ask_price
      = (rawQuote pEx cfgEx intensityEx rsEx 0).1 :=
  ⟨by decide,
    ((claim_C1_latency_semantics pEx cfgEx intensityEx rsEx 0 (by decide)).1 rfl).1⟩

/-- C2: Wealth accounting identity: every `StepRecord` produced by
`run_trajectory` satisfies `wealth = cash + inventory * mid_price` exactly, and
the returned `final_pnl` equals final cash + final inventory × final mid-price
after all `num_steps` iterations. -/
theorem claim_C2_wealth_identity (p : Parameters) (config : SimConfig)
    (intensity : ℝ → ℝ) (rs : RandStream) :
    (∀ rec ∈ (run_trajectory p config intensity rs).trajectory,
      rec.wealth = rec.cash + (rec.inventory : ℝ) * rec.mid_price)
    ∧ (run_trajectory p config intensity rs).final_pnl
        = (simStates p config intensity rs config.num_steps).w
          + ((simStates p config intensity rs config.num_steps).q : ℝ)
            * (simStates p config intensity rs config.num_steps).s := by
  constructor
  · intro rec hrec
    have : rec ∈ (simStates p config intensity rs config.num_steps).trajectory := hrec
    rw [trajectory_eq] at this
    simp only [List.mem_map] at this
    obtain ⟨n, _, rfl⟩ := this
    rfl
  · rfl

theorem claim_C2_witness :
    recordAt pEx cfgEx intensityEx rsEx 0
        ∈ (run_trajectory pEx cfgEx intensityEx rsEx).trajectory
    ∧ (recordAt pEx cfgEx intensityEx rsEx 0).wealth
        = (recordAt pEx cfgEx intensityEx rsEx 0).cash
          + ((recordAt pEx cfgEx intensityEx rsEx 0).inventory : ℝ)
            * (recordAt pEx cfgEx intensityEx rsEx 0).mid_price := by
  have hm : recordAt pEx cfgEx intensityEx rsEx 0
      ∈ (run_trajectory pEx cfgEx intensityEx rsEx).trajectory := by
    show _ ∈ (simStates pEx cfgEx intensityEx rsEx cfgEx.num_steps).trajectory
    rw [trajectory_eq]
    rw [show cfgEx.num_steps = 1 from rfl]
    simp
  exact ⟨hm, (claim_C2_wealth_identity pEx cfgEx intensityEx rsEx).1 _ hm⟩

/-- C7: Fill accounting in `run_trajectory`: at every step the inventory
changes exactly by `(+1 if the bid-fill draw fires) - (+1 if the ask-fill draw
fires)` and the cash by `- effective_bid` resp. `+ effective_ask` for those same
fills, the two fills being decided by the two independent uniform draws of that
step; consequently the per-step inventory change lies in `{-2,-1,0,1,2}`. -/
theorem claim_C7_fill_accounting (p : Parameters) (config : SimConfig)
    (intensity : ℝ → ℝ) (rs : RandStream) (n : ℕ) :
    (simStates p config intensity rs (n + 1)).q
        = (simStates p config intensity rs n).q
          + (if rs.us_bid n < bidFillProb p config intensity rs n then 1 else 0)
          - (if rs.us_ask n < askFillProb p config intensity rs n then 1 else 0)
    ∧ (simStates p config intensity rs (n + 1)).w
        = (simStates p config intensity rs n).w
          - (if rs.us_bid n < bidFillProb p config intensity rs n
              then (effQuotes p config intensity rs n).2 else 0)
          + (if rs.us_ask n < askFillProb p config intensity rs n
              then (effQuotes p config intensity rs n).1 else 0)
    ∧ ((simStates p config intensity rs (n + 1)).q
        - (simStates p config intensity rs n).q) ∈ ({-2, -1, 0, 1, 2} : Set ℤ) := by
  have hq : (simStates p config intensity rs (n + 1)).q
      = (simStates p config intensity rs n).q
        + (if rs.us_bid n < bidFillProb p config intensity rs n then 1 else 0)
        - (if rs.us_ask n < askFillProb p config intensity rs n then 1 else 0) := rfl
  have hw : (simStates p config intensity rs (n + 1)).w
      = (simStates p config intensity rs n).w
        - (if rs.us_bid n < bidFillProb p config intensity rs n
            then (effQuotes p config intensity rs n).2 else 0)
        + (if rs.us_ask n < askFillProb p config intensity rs n
            then (effQuotes p config intensity rs n).1 else 0) := rfl
  refine ⟨hq, hw, ?_⟩
  rw [hq]
  split_ifs <;> simp [Set.mem_insert_iff]

/-- C10: Initial conditions: with `num_steps ≥ 1` the first `StepRecord` has
`time = 0`, `mid_price = s_0`, `inventory = 0`, `cash = 0` and `wealth = 0`;
moreover every record `i` is a snapshot of the loop state at the start of
iteration `i`, i.e. taken before that step's price move and fills. -/
theorem claim_C10_initial_conditions (p : Parameters) (config : SimConfig)
    (intensity : ℝ → ℝ) (rs : RandStream) (h : 1 ≤ config.num_steps) :
    (((run_trajectory p config intensity rs).trajectory.getD 0 default).time = 0
      ∧ ((run_trajectory p config intensity rs).trajectory.getD 0 default).mid_price
          = config.s_0
      ∧ ((run_trajectory p config intensity rs).trajectory.getD 0 default).inventory = 0
      ∧ ((run_trajectory p config intensity rs).trajectory.getD 0 default).cash = 0
      ∧ ((run_trajectory p config intensity rs).trajectory.getD 0 default).wealth = 0)
    ∧ ∀ i, i < config.num_steps →
        ((run_trajectory p config intensity rs).trajectory.getD i default).time
            = (simStates p config intensity rs i).t
        ∧ ((run_trajectory p config intensity rs).trajectory.getD i default).mid_price
            = (simStates p config intensity rs i).s
        ∧ ((run_trajectory p config intensity rs).trajectory.getD i default).inventory
            = (simStates p config intensity rs i).q
        ∧ ((run_trajectory p config intensity rs).trajectory.getD i default).cash
            = (simStates p config intensity rs i).w := by
  constructor
  · rw [trajectory_getD p config intensity rs 0 h]
    refine ⟨rfl, rfl, rfl, rfl, ?_⟩
    show (0 : ℝ) + ((0 : ℤ) : ℝ) * config.s_0 = 0
    simp
  · intro i hi
    rw [trajectory_getD p config intensity rs i hi]
    exact ⟨rfl, rfl, rfl, rfl⟩

theorem claim_C10_witness :
    1 ≤ cfgEx.num_steps ∧
    ((run_trajectory pEx cfgEx intensityEx rsEx).trajectory.getD 0 default).time = 0 :=
  ⟨by decide,
    (claim_C10_initial_conditions pEx cfgEx intensityEx rsEx (by decide)).1.1⟩

/-- C3: For every `Parameters` with `gamma > 0`, `sigma ≥ 0`, `k > 0` and
every time `t ≤ t_horizon`, `optimal_spread ≥ 0`; consequently for every quote
pair produced by `quotes r spread` from such a spread, `ask ≥ bid`. -/
theorem claim_C3_spread_nonneg (p : Parameters) (t r : ℝ) (hg : 0 < p.gamma)
    (hs : 0 ≤ p.sigma) (hk : 0 < p.k) (ht : t ≤ p.t_horizon) :
    0 ≤ optimal_spread p t
    ∧ (quotes r (optimal_spread p t)).2 ≤ (quotes r (optimal_spread p t)).1 := by
  have h1 : 0 ≤ p.gamma * (p.sigma * p.sigma) * (p.t_horizon - t) :=
    mul_nonneg (mul_nonneg hg.le (mul_self_nonneg _)) (by linarith)
  have h2 : 0 ≤ (2 / p.gamma) * Real.log (1 + p.gamma / p.k) := by
    apply mul_nonneg
    · positivity
    · apply Real.log_nonneg
      have : 0 < p.gamma / p.k := div_pos hg hk
      linarith
  have hspread : 0 ≤ optimal_spread p t := by
    unfold optimal_spread
    linarith
  refine ⟨hspread, ?_⟩
  simp only [quotes]
  linarith

theorem claim_C3_witness :
    (0 < pEx.gamma ∧ 0 ≤ pEx.sigma ∧ 0 < pEx.k ∧ (0 : ℝ) ≤ pEx.t_horizon)
    ∧ 0 ≤ optimal_spread pEx 0 :=
  ⟨⟨by norm_num [pEx], by norm_num [pEx], by norm_num [pEx], by norm_num [pEx]⟩,
    (claim_C3_spread_nonneg pEx 0 100 (by norm_num [pEx]) (by norm_num [pEx])
      (by norm_num [pEx]) (by norm_num [pEx])).1⟩

/-- Rust `analysis.rs` `calculate_sharpe`: returns `0` if fewer than two samples,
else `mean / std` with the Bessel-corrected sample standard deviation, with the
degenerate `std = 0` case mapped to `0`. -/
noncomputable def calculate_sharpe (pnls : List ℝ) : ℝ :=
  let n : ℝ := pnls.length
  if n < 2 then 0
  else
    let mean := pnls.sum / n
    let variance := (pnls.map (fun x => (x - mean) ^ 2)).sum / (n - 1)
    let std_dev := Real.sqrt variance
    if std_dev = 0 then 0 else mean / std_dev

/-- The Bessel-corrected sample standard deviation of a list of samples, per the
spec: `sqrt(Σ(x - mean)² / (n - 1))`. -/
noncomputable def sampleStd (pnls : List ℝ) : ℝ :=
  Real.sqrt ((pnls.map (fun x => (x - pnls.sum / (pnls.length : ℝ)) ^ 2)).sum
    / ((pnls.length : ℝ) - 1))

/-- C4: Sharpe-ratio computation: for `n < 2` samples the result is `0`;
otherwise it is `mean / std` with `std` the Bessel-corrected sample standard
deviation, except that it is `0` when `std = 0`, in particular whenever all `n`
samples are identical. -/
theorem claim_C4_sharpe (pnls : List ℝ) :
    (pnls.length < 2 → calculate_sharpe pnls = 0)
    ∧ (2 ≤ pnls.length → calculate_sharpe pnls =
        (if sampleStd pnls = 0 then 0
          else pnls.sum / (pnls.length : ℝ) / sampleStd pnls))
    ∧ (∀ c : ℝ, 2 ≤ pnls.length → (∀ x ∈ pnls, x = c) →
        calculate_sharpe pnls = 0) := by
  refine ⟨fun h => ?_, fun h => ?_, fun c h hc => ?_⟩
  · have hcast : ((pnls.length : ℝ)) < 2 := by exact_mod_cast h
    simp only [calculate_sharpe, if_pos hcast]
  · have hcast : ¬ ((pnls.length : ℝ) < 2) := by
      exact_mod_cast not_lt.mpr h
    simp only [calculate_sharpe, if_neg hcast, sampleStd]
  · have hcast : ¬ ((pnls.length : ℝ) < 2) := by
      exact_mod_cast not_lt.mpr h
    have hne : ((pnls.length : ℝ)) ≠ 0 := by
      have : (0 : ℕ) < pnls.length := by omega
      exact_mod_cast this.ne'
    have hsum : pnls.sum = (pnls.length : ℝ) * c := by
      rw [List.sum_eq_card_nsmul pnls c hc, nsmul_eq_mul]
    have hmean : pnls.sum / (pnls.length : ℝ) = c := by
      rw [hsum, mul_comm, mul_div_assoc, div_self hne, mul_one]
    have hzero : (pnls.map (fun x => (x - pnls.sum / (pnls.length : ℝ)) ^ 2)).sum = 0 := by
      apply List.sum_eq_zero
      intro y hy
      rw [List.mem_map] at hy
      obtain ⟨x, hx, rfl⟩ := hy
      rw [hmean, hc x hx]
      ring
    simp only [calculate_sharpe, if_neg hcast, hzero, zero_div, Real.sqrt_zero]
    simp

theorem claim_C4_witness :
    2 ≤ [(1 : ℝ), 1].length ∧ (∀ x ∈ [(1 : ℝ), 1], x = 1)
    ∧ calculate_sharpe [(1 : ℝ), 1] = 0 := by
  have hall : ∀ x ∈ [(1 : ℝ), 1], x = 1 := by
    intro x hx
    rcases List.mem_cons.mp hx with h | h
    · exact h
    · simpa using h
  exact ⟨by decide, hall, (claim_C4_sharpe [(1 : ℝ), 1]).2.2 1 (by decide) hall⟩

/-- C8: For both intensity variants with non-negative parameters, the
computed intensity is non-negative for every real distance, monotonically
non-increasing in the distance, and clamps negative distance to zero:
`calculate_intensity d = calculate_intensity 0` for every `d ≤ 0`. -/
theorem claim_C8_intensity (e : ExponentialIntensity) (pl : PowerLawIntensity)
    (hea : 0 ≤ e.a) (hek : 0 ≤ e.k) (hpa : 0 ≤ pl.a) (hpk : 0 ≤ pl.k)
    (hpb : 0 ≤ pl.beta) :
    ((∀ d, 0 ≤ e.calculate_intensity d)
      ∧ (∀ d₁ d₂, d₁ ≤ d₂ → e.calculate_intensity d₂ ≤ e.calculate_intensity d₁)
      ∧ (∀ d, d ≤ 0 → e.calculate_intensity d = e.calculate_intensity 0))
    ∧ ((∀ d, 0 ≤ pl.calculate_intensity d)
      ∧ (∀ d₁ d₂, d₁ ≤ d₂ → pl.calculate_intensity d₂ ≤ pl.calculate_intensity d₁)
      ∧ (∀ d, d ≤ 0 → pl.calculate_intensity d = pl.calculate_intensity 0)) := by
  refine ⟨⟨fun d => ?_, fun d₁ d₂ h12 => ?_, fun d hd => ?_⟩,
    ⟨fun d => ?_, fun d₁ d₂ h12 => ?_, fun d hd => ?_⟩⟩
  · exact mul_nonneg hea (Real.exp_pos _).le
  · unfold ExponentialIntensity.calculate_intensity
    apply mul_le_mul_of_nonneg_left _ hea
    apply Real.exp_le_exp.mpr
    have hmax : max d₁ 0 ≤ max d₂ 0 := max_le_max h12 le_rfl
    have := mul_le_mul_of_nonneg_left hmax hek
    linarith
  · unfold ExponentialIntensity.calculate_intensity
    rw [max_eq_right hd, max_self]
  · have hbase : (0 : ℝ) < 1 + pl.k * max d 0 := by
      have h0 : (0 : ℝ) ≤ pl.k * max d 0 := mul_nonneg hpk (le_max_right _ _)
      linarith
    exact mul_nonneg hpa (Real.rpow_nonneg hbase.le _)
  · unfold PowerLawIntensity.calculate_intensity
    apply mul_le_mul_of_nonneg_left _ hpa
    have hbase1 : (0 : ℝ) < 1 + pl.k * max d₁ 0 := by
      have h0 : (0 : ℝ) ≤ pl.k * max d₁ 0 := mul_nonneg hpk (le_max_right _ _)
      linarith
    have hle : 1 + pl.k * max d₁ 0 ≤ 1 + pl.k * max d₂ 0 := by
      have hmax : max d₁ 0 ≤ max d₂ 0 := max_le_max h12 le_rfl
      have := mul_le_mul_of_nonneg_left hmax hpk
      linarith
    exact Real.rpow_le_rpow_of_nonpos hbase1 hle (neg_nonpos.mpr hpb)
  · unfold PowerLawIntensity.calculate_intensity
    rw [max_eq_right hd, max_self]

/-- Example intensity-model instances for the C8 witness. -/
noncomputable def expEx : ExponentialIntensity := { k := 1.5, a := 140 }

noncomputable def plEx : PowerLawIntensity := { a := 140, k := 1.5, beta := 2 }

theorem claim_C8_witness :
    (0 ≤ expEx.a ∧ 0 ≤ expEx.k ∧ 0 ≤ plEx.a ∧ 0 ≤ plEx.k ∧ 0 ≤ plEx.beta)
    ∧ 0 ≤ expEx.calculate_intensity 1 :=
  ⟨⟨by norm_num [expEx], by norm_num [expEx], by norm_num [plEx], by norm_num [plEx],
      by norm_num [plEx]⟩,
    (claim_C8_intensity expEx plEx (by norm_num [expEx]) (by norm_num [expEx])
      (by norm_num [plEx]) (by norm_num [plEx]) (by norm_num [plEx])).1.1 1⟩

/-- Rust `analysis.rs` `SweepConfig`. -/
structure SweepConfig where
  gammas : List ℝ
  sigmas : List ℝ
  ks : List ℝ
  drifts : List ℝ
  sim_config : SimConfig
  iterations_per_param : ℕ

/-- Rust `analysis.rs` `SweepResult`. -/
structure SweepResult where
  gamma : ℝ
  sigma : ℝ
  k : ℝ
  drift : ℝ
  mean_pnl : ℝ
  std_pnl : ℝ
  sharpe_ratio : ℝ
  max_drawdown : ℝ
  mean_abs_inventory : ℝ
  max_inventory : ℝ
  terminal_inventory_mean : ℝ
  terminal_inventory_std : ℝ

instance : Inhabited SweepResult := ⟨⟨0, 0, 0, 0, 0, 0, 0, 0, 0, 0, 0, 0⟩⟩

/-- The combination list of `run_sweep`:
`itertools::iproduct!(gammas, sigmas, ks, drifts)`, i.e. the full Cartesian
product in nested-iteration order with `gammas` outermost and `drifts`
innermost. -/
def combinations (sweep_config : SweepConfig) : List (ℝ × ℝ × ℝ × ℝ) :=
  sweep_config.gammas.flatMap fun g =>
    sweep_config.sigmas.flatMap fun s =>
      sweep_config.ks.flatMap fun k =>
        sweep_config.drifts.map fun d => (g, s, k, d)

/-- The per-combination strategy parameters of `run_sweep`:
`Parameters { gamma, sigma, k, ..base_params }`. -/
def comboParams (base_params : Parameters) (c : ℝ × ℝ × ℝ × ℝ) : Parameters :=
  { base_params with gamma := c.1, sigma := c.2.1, k := c.2.2.1 }

/-- The per-combination simulation config of `run_sweep`: the base `sim_config`
with `drift` replaced by the combination's drift. -/
def comboSimConfig (sweep_config : SweepConfig) (c : ℝ × ℝ × ℝ × ℝ) : SimConfig :=
  { sweep_config.sim_config with drift := c.2.2.2 }

/-- Rust `analysis.rs` `RunStats` (per-run reduction of one trajectory). -/
structure RunStats where
  pnl : ℝ
  mean_abs_q : ℝ
  max_q : ℝ
  final_q : ℝ

/-- The `RunStats` computed from one `SimResult` inside `run_sweep`'s Monte
Carlo loop. -/
noncomputable def runStatsOf (res : SimResult) : RunStats :=
  { pnl := res.final_pnl,
    mean_abs_q := (res.trajectory.map fun s => (|s.inventory| : ℝ)).sum
      / (res.trajectory.length : ℝ),
    max_q := ((((res.trajectory.map fun s => |s.inventory|).max?.getD 0 : ℤ)) : ℝ),
    final_q := (res.trajectory.map fun s => (s.inventory : ℝ)).getLastD 0 }

/-- The body of `run_sweep`'s parallel map: reduce `iterations_per_param`
independent trajectories of one parameter combination into one `SweepResult`.
The `j`-th iteration uses the random stream `iterRand j`. -/
noncomputable def processCombo (base_params : Parameters) (sweep_config : SweepConfig)
    (intensity : ℝ → ℝ) (c : ℝ × ℝ × ℝ × ℝ) (iterRand : ℕ → RandStream) : SweepResult :=
  let params := comboParams base_params c
  let current_sim_config := comboSimConfig sweep_config c
  let run_stats := (List.range sweep_config.iterations_per_param).map fun j =>
    runStatsOf (run_trajectory params current_sim_config intensity (iterRand j))
  let n : ℝ := run_stats.length
  let pnls := run_stats.map fun s => s.pnl
  let final_qs := run_stats.map fun s => s.final_q
  let mean_pnl := pnls.sum / n
  let pnl_variance := (pnls.map fun x => (x - mean_pnl) ^ 2).sum / (n - 1)
  let std_pnl := Real.sqrt pnl_variance
  let sharpe := calculate_sharpe pnls
  let mean_abs_inventory := (run_stats.map fun s => s.mean_abs_q).sum / n
  let max_inventory := (run_stats.map fun s => s.max_q).sum / n
  let terminal_inv_mean := final_qs.sum / n
  let terminal_inv_var := (final_qs.map fun x => (x - terminal_inv_mean) ^ 2).sum / (n - 1)
  { gamma := c.1, sigma := c.2.1, k := c.2.2.1, drift := c.2.2.2,
    mean_pnl := mean_pnl, std_pnl := std_pnl, sharpe_ratio := sharpe,
    max_drawdown := 0, mean_abs_inventory := mean_abs_inventory,
    max_inventory := max_inventory, terminal_inventory_mean := terminal_inv_mean,
    terminal_inventory_std := Real.sqrt terminal_inv_var }

/-- Order-preserving indexed map (`rayon`'s `par_iter().map().collect()` over
the combination list preserves the input order; the index selects each
combination's own family of independent random streams). -/
def mapWithIndex (f : ℕ → α → β) : ℕ → List α → List β
  | _, [] => []
  | i, c :: cs => f i c :: mapWithIndex f (i + 1) cs

/-- Rust `analysis.rs` `run_sweep`: one `SweepResult` per combination of the
Cartesian product, in order; combination `i`, iteration `j` draws from the
independent random stream `rand i j`. -/
noncomputable def run_sweep (base_params : Parameters) (sweep_config : SweepConfig)
    (intensity : ℝ → ℝ) (rand : ℕ → ℕ → RandStream) : List SweepResult :=
  mapWithIndex
    (fun i c => processCombo base_params sweep_config intensity c (rand i))
    0 (combinations sweep_config)

lemma length_mapWithIndex (f : ℕ → α → β) : ∀ (i : ℕ) (l : List α),
    (mapWithIndex f i l).length = l.length := by
  intro i l
  induction l generalizing i with
  | nil => rfl
  | cons c cs ih => simp [mapWithIndex, ih]

lemma getD_mapWithIndex (f : ℕ → α → β) (d : β) (d' : α) :
    ∀ (i j : ℕ) (l : List α), j < l.length →
      (mapWithIndex f i l).getD j d = f (i + j) (l.getD j d') := by
  intro i j l
  induction l generalizing i j with
  | nil => intro h; simp at h
  | cons c cs ih =>
      intro h
      cases j with
      | zero => simp [mapWithIndex]
      | succ j =>
          have hj : j < cs.length := by simpa using h
          show (mapWithIndex f (i + 1) cs).getD j d = _
          rw [ih (i + 1) j hj]
          congr 1
          omega

lemma map_mapWithIndex (g : β → γ) (f : ℕ → α → β) : ∀ (i : ℕ) (l : List α),
    (mapWithIndex f i l).map g = mapWithIndex (fun i a => g (f i a)) i l := by
  intro i l
  induction l generalizing i with
  | nil => rfl
  | cons c cs ih => simp [mapWithIndex, ih]

lemma mapWithIndex_eq_self (f : ℕ → α → α) (hf : ∀ i a, f i a = a) :
    ∀ (i : ℕ) (l : List α), mapWithIndex f i l = l := by
  intro i l
  induction l generalizing i with
  | nil => rfl
  | cons c cs ih => simp [mapWithIndex, hf, ih]

lemma length_flatMap_const {α β : Type _} (l : List α) (f : α → List β) (c : ℕ)
    (hf : ∀ a, (f a).length = c) : (l.flatMap f).length = l.length * c := by
  induction l with
  | nil => simp
  | cons a as ih => simp [List.flatMap_cons, hf, ih, Nat.succ_mul]; omega

lemma length_combinations (sweep_config : SweepConfig) :
    (combinations sweep_config).length
      = sweep_config.gammas.length * sweep_config.sigmas.length
        * sweep_config.ks.length * sweep_config.drifts.length := by
  unfold combinations
  rw [length_flatMap_const _ _ (sweep_config.sigmas.length * (sweep_config.ks.length
      * sweep_config.drifts.length))]
  · ring
  · intro g
    rw [length_flatMap_const _ _ (sweep_config.ks.length * sweep_config.drifts.length)]
    intro s
    rw [length_flatMap_const _ _ sweep_config.drifts.length]
    intro k
    exact List.length_map _ _

/-- C6: `run_sweep` returns exactly `|gammas| × |sigmas| × |ks| × |drifts|`
`SweepResult` entries — one per element of the Cartesian product, each tagged
with its own `(gamma, sigma, k, drift)` combination — in nested-iteration order
with `gammas` outermost and `drifts` innermost. -/
theorem claim_C6_cartesian_product (base_params : Parameters)
    (sweep_config : SweepConfig) (intensity : ℝ → ℝ) (rand : ℕ → ℕ → RandStream) :
    (run_sweep base_params sweep_config intensity rand).map
        (fun r => (r.gamma, r.sigma, r.k, r.drift)) = combinations sweep_config
    ∧ (run_sweep base_params sweep_config intensity rand).length
        = sweep_config.gammas.length * sweep_config.sigmas.length
          * sweep_config.ks.length * sweep_config.drifts.length := by
  constructor
  · rw [run_sweep, map_mapWithIndex]
    exact mapWithIndex_eq_self _ (fun i c => rfl) 0 _
  · rw [run_sweep, length_mapWithIndex, length_combinations]

/-- Spec-side (per §4.4 of the spec): the per-run peak `|inventory|` of one
simulation run — the maximum of `|inventory|` over the run's `StepRecord`s. -/
noncomputable def perRunPeakInventory (res : SimResult) : ℝ :=
  ((((res.trajectory.map fun s => |s.inventory|).max?.getD 0 : ℤ)) : ℝ)

/-- Spec-side (per §4.4 of the spec): the arithmetic mean over `n` runs of each
run's peak `|inventory|` — the mean of per-run peaks. -/
noncomputable def meanPerRunPeakInventory (params : Parameters) (config : SimConfig)
    (intensity : ℝ → ℝ) (iterRand : ℕ → RandStream) (n : ℕ) : ℝ :=
  ((List.range n).map fun j =>
    perRunPeakInventory (run_trajectory params config intensity (iterRand j))).sum
    / (n : ℝ)

/-- C9: `maxInventory` semantics: in every `SweepResult`, the
`max_inventory` field equals the arithmetic mean over the `n` runs of that
combination of each run's maximum of `|inventory|` over its `StepRecord`s —
the mean of per-run peaks, not the maximum over all runs. -/
theorem claim_C9_max_inventory (base_params : Parameters)
    (sweep_config : SweepConfig) (intensity : ℝ → ℝ) (rand : ℕ → ℕ → RandStream)
    (i : ℕ) (hi : i < (combinations sweep_config).length) :
    ((run_sweep base_params sweep_config intensity rand).getD i default).max_inventory
      = meanPerRunPeakInventory
          (comboParams base_params ((combinations sweep_config).getD i default))
          (comboSimConfig sweep_config ((combinations sweep_config).getD i default))
          intensity (rand i) sweep_config.iterations_per_param := by
  rw [run_sweep, getD_mapWithIndex _ default default 0 i _ hi, Nat.zero_add]
  simp only [processCombo, meanPerRunPeakInventory, perRunPeakInventory, runStatsOf,
    List.map_map, List.length_map, List.length_range]
  rfl

/-- Example sweep configuration with `iterations_per_param = 1 < 2` (the C5
failing input) and singleton parameter grids. -/
noncomputable def cfgBad : SweepConfig :=
  { gammas := [0.1], sigmas := [0.2], ks := [1.5], drifts := [0],
    sim_config := cfgEx, iterations_per_param := 1 }

/-- Family of independent random streams for the sweep witnesses. -/
noncomputable def randEx : ℕ → ℕ → RandStream := fun _ _ => rsEx

/-- C5: The claim says a malformed configuration (in particular
`iterations_per_param < 2`) makes `run_sweep` fail with a validation error
before any simulation work begins.  The code has no validation and no error
path at all: on the malformed configuration `cfgBad` (`iterations_per_param =
1`) `run_sweep` runs the sweep to completion and returns a normal, full-length
result list (in `f64` its `std_pnl` is `0/0 = NaN`, silently). -/
theorem claim_C5_no_validation :
    (run_sweep pEx cfgBad intensityEx randEx).length = 1
    ∧ cfgBad.iterations_per_param < 2 := by
  constructor
  · rw [run_sweep, length_mapWithIndex, length_combinations]
    rfl
  · decide

theorem claim_C9_witness :
    0 < (combinations cfgBad).length ∧
    ((run_sweep pEx cfgBad intensityEx randEx).getD 0 default).max_inventory
      = meanPerRunPeakInventory
          (comboParams pEx ((combinations cfgBad).getD 0 default))
          (comboSimConfig cfgBad ((combinations cfgBad).getD 0 default))
          intensityEx (randEx 0) cfgBad.iterations_per_param := by
  have hlen : 0 < (combinations cfgBad).length := by
    rw [length_combinations]
    decide
  exact ⟨hlen, claim_C9_max_inventory pEx cfgBad intensityEx randEx 0 hlen⟩

end AvellanedaStoikov
